import Mathlib

/-!
Verification of the substring-index and boundary-corruption core
(`src/rust/src/lib.rs`) against its natural-language specification.

Strings are modelled as `List Char`. Where the Rust code manipulates byte
offsets of UTF-8 encoded strings (the corruption checkers), the model encodes
characters to UTF-8 byte lists and works on those bytes, so that byte-index
arithmetic, character-boundary checks and the panics they can cause are
captured faithfully. A result of `none` models a Rust panic.

The suffix-array index (`RustSubstringIndex`) is modelled at character level:
for valid UTF-8 every occurrence of a valid UTF-8 pattern begins at a
character boundary, so the byte offsets used by the code and the character
offsets used by the model are related by the monotone bijection between
character boundaries and character indices, and the cumulative-start tables,
binary search and span checks coincide under that bijection.
-/

/-- The reserved sentinel byte, `"\x00"` in `RustSubstringIndex::new`. -/
def sentinel : Char := Char.ofNat 0

/-- Models `formatted_typos.join(&delimiter)` with the one-character
delimiter `"\x00"`: the entries concatenated with a sentinel between
consecutive entries (no leading or trailing sentinel). -/
def concatWithSentinel : List (List Char) → List Char
  | [] => []
  | [t] => t
  | t :: ts => t ++ sentinel :: concatWithSentinel ts

/-- Models the cumulative-start loop of `RustSubstringIndex::new`:
`cumulative_starts.push(cumulative_pos); cumulative_pos += typo.len() + delimiter.len()`
with `delimiter.len() = 1`. `acc` is the running `cumulative_pos`. -/
def startsFrom : Nat → List (List Char) → List Nat
  | _, [] => []
  | acc, t :: ts => acc :: startsFrom (acc + t.length + 1) ts

/-- Error values of the Python binding layer (`PyResult`). The spec names
`InvalidInputError` and `InvalidArgumentError`; the Rust code of this
repository never constructs either. -/
inductive PyErr
  | invalidInput
  | invalidArgument
deriving DecidableEq

/-- The fields of `RustSubstringIndex` that carry information: `typos`,
`concatenated`, `delimiter` and `cumulative_starts`. The `suffix_array`
field is a function of `concatenated` and is modelled by `sa_positions`
applied to `concatenated`; the `typo_to_idx` hash map is a function of
`typos` and is modelled by `typo_to_idx_get`. -/
structure RustSubstringIndex where
  typos : List (List Char)
  concatenated : List Char
  delimiter : List Char
  cumulative_starts : List Nat
deriving DecidableEq

/-- The body of `RustSubstringIndex::new` (which always returns `Ok`). -/
def buildIndex (formatted_typos : List (List Char)) : RustSubstringIndex :=
  { typos := formatted_typos
    concatenated := concatWithSentinel formatted_typos
    delimiter := [sentinel]
    cumulative_starts := startsFrom 0 formatted_typos }

/-- Models `RustSubstringIndex::new : Vec<String> -> PyResult<Self>`.
The Rust constructor performs no validation and ends in `Ok(Self {...})`,
so the model is `Except.ok` of the built index on every input. -/
def RustSubstringIndex.new (formatted_typos : List (List Char)) :
    Except PyErr RustSubstringIndex :=
  Except.ok (buildIndex formatted_typos)

/-- Models `suffix::SuffixTable::positions(query)`: the crate returns every
offset at which the query occurs in the text, and returns an empty slice
when the text is empty or the query is empty (an explicit early return in
the crate). The crate leaves the order unspecified; the model lists the
occurrences in increasing offset, and the theorems below only use
membership. -/
def sa_positions (text query : List Char) : List Nat :=
  if text.isEmpty || query.isEmpty then []
  else (List.range text.length).filter (fun p => query.isPrefixOf (text.drop p))

/-- Result type of Rust `slice::binary_search`. -/
inductive BsResult
  | ok (i : Nat)
  | err (i : Nat)
deriving DecidableEq

/-- Models `slice::binary_search(&pos)` on `cumulative_starts`, which is
strictly increasing by construction: `ok i` when the value sits at index
`i`, otherwise `err` of the insertion point, the number of elements smaller
than the value. (On a strictly increasing slice this is exactly the Rust
result; Rust leaves the choice of index unspecified only when duplicates
are present.) -/
def binary_search (l : List Nat) (x : Nat) : BsResult :=
  let i := l.countP (fun a => decide (a < x))
  if l[i]? = some x then .ok i else .err i

/-- Models the lookup `self.typo_to_idx.get(typo)` where `typo_to_idx` is
the `HashMap` collected from `formatted_typos.iter().enumerate()`: later
insertions overwrite earlier ones for equal text, so the lookup returns
the greatest index holding the given text, and `none` when the text is not
an entry. -/
def typo_to_idx_get (typos : List (List Char)) (t : List Char) : Option Nat :=
  (List.range typos.length).reverse.find? (fun i => typos[i]? == some t)

/-- The checks guarding the push in the loop of `find_substring_conflicts`:
the bound check `idx < self.typos.len()` and the span check
`typo_start <= pos && pos < typo_end` with
`typo_start = cumulative_starts[idx]` and
`typo_end = typo_start + typos[idx].len()`. -/
def span_check (S : RustSubstringIndex) (pos idx : Nat) : Option Nat :=
  if idx < S.typos.length then
    if S.cumulative_starts.getD idx 0 ≤ pos
        ∧ pos < S.cumulative_starts.getD idx 0 + (S.typos.getD idx []).length then
      some idx
    else none
  else none

/-- The per-position body of the loop in `find_substring_conflicts`:
binary search of `pos` in `cumulative_starts` (`Err(i)` with `i > 0` picks
`i - 1`, `Err(0)` means the position is before the first typo and the
iteration `continue`s), then the bound and span checks. Returns the index
pushed for this position, if any. -/
def match_pos_to_idx (S : RustSubstringIndex) (pos : Nat) : Option Nat :=
  match binary_search S.cumulative_starts pos with
  | .ok i => span_check S pos i
  | .err i => if 0 < i then span_check S pos (i - 1) else none

/-- Models `RustSubstringIndex::find_substring_conflicts` (the `Ok`-wrapped
value): map every suffix-array match position to an owning entry index,
then filter out the index resolved for `typo` by the reverse lookup. -/
def find_substring_conflicts (S : RustSubstringIndex) (typo : List Char) :
    List Nat :=
  let match_list := sa_positions S.concatenated typo
  let matched_typo_indices := match_list.filterMap (match_pos_to_idx S)
  let self_idx := typo_to_idx_get S.typos typo
  matched_typo_indices.filter (fun idx => some idx != self_idx)

/-- Models `RustSubstringIndex::get_typos`. -/
def get_typos (S : RustSubstringIndex) : List (List Char) :=
  S.typos

/-- UTF-8 encoding of one scalar value, as Rust strings store it. -/
def utf8Bytes (c : Char) : List Nat :=
  let n := c.toNat
  if n < 0x80 then [n]
  else if n < 0x800 then [0xC0 + n / 0x40, 0x80 + n % 0x40]
  else if n < 0x10000 then
    [0xE0 + n / 0x1000, 0x80 + n / 0x40 % 0x40, 0x80 + n % 0x40]
  else
    [0xF0 + n / 0x40000, 0x80 + n / 0x1000 % 0x40, 0x80 + n / 0x40 % 0x40,
      0x80 + n % 0x40]

/-- The UTF-8 byte representation of a string, `str::as_bytes`. -/
def encodeUtf8 (s : List Char) : List Nat :=
  (s.map utf8Bytes).flatten

/-- Models `str::is_char_boundary(i)` on the byte representation: true at
`0`, at the byte length, and at any in-range index whose byte is not a
UTF-8 continuation byte (`0x80..0xBF`). Slicing `&s[i..]` panics exactly
when this is false. -/
def is_char_boundary (bytes : List Nat) (i : Nat) : Bool :=
  if i = 0 then true
  else
    match bytes[i]? with
    | none => i == bytes.length
    | some b => if 0x80 ≤ b ∧ b < 0xC0 then false else true

/-- Models `str::find(&str)` on byte representations: the offset of the
first occurrence of `pat`, and `some 0` for an empty `pat`. -/
def str_find (pat : List Nat) : List Nat → Option Nat
  | [] => if pat.isPrefixOf [] then some 0 else none
  | b :: t =>
    if pat.isPrefixOf (b :: t) then some 0
    else (str_find pat t).map (· + 1)

/-- Models `source_word.chars().nth(n).map_or(false, |c| c.is_alphabetic())`,
with the alphabetic classification abstracted as `alpha`. Note `nth`
indexes characters while the callers pass byte offsets. -/
def nthIsAlphabetic (alpha : Char → Bool) (word : List Char) (n : Nat) : Bool :=
  match word[n]? with
  | some c => alpha c
  | none => false

/-- The `while let` loop of `would_corrupt_rtl`, one recursive step per
iteration. `idx` is the byte index the slice `&source_word[idx..]` starts
at; an out-of-boundary `idx` models the slicing panic as `none`. The loop
advances `idx` by at least one byte per iteration and exits once `idx`
reaches the word's byte length, so `wbytes.length + 1` iterations always
suffice; the wrapper passes that much fuel and the fuel-exhausted branch is
unreachable. -/
def rtlLoop (alpha : Char → Bool) (pbytes : List Nat) (word : List Char)
    (wbytes : List Nat) : Nat → Nat → Option Bool
  | _, 0 => none
  | idx, fuel + 1 =>
    if is_char_boundary wbytes idx = false then none
    else
      match str_find pbytes (wbytes.drop idx) with
      | none => some false
      | some pos =>
        if (idx + pos == 0) || !nthIsAlphabetic alpha word (idx + pos - 1) then
          some true
        else if wbytes.length ≤ idx + pos + 1 then some false
        else rtlLoop alpha pbytes word wbytes (idx + pos + 1) fuel

/-- Models `would_corrupt_rtl(pattern, source_word)` with alphabetic
classification `alpha`; `none` models a panic. -/
def would_corrupt_rtl (alpha : Char → Bool) (pattern source_word : List Char) :
    Option Bool :=
  let wbytes := encodeUtf8 source_word
  rtlLoop alpha (encodeUtf8 pattern) source_word wbytes 0 (wbytes.length + 1)

/-- The `while let` loop of `would_corrupt_ltr`; see `rtlLoop` for the
conventions. `char_after_idx` is `idx + pos + pbytes.length`. -/
def ltrLoop (alpha : Char → Bool) (pbytes : List Nat) (word : List Char)
    (wbytes : List Nat) : Nat → Nat → Option Bool
  | _, 0 => none
  | idx, fuel + 1 =>
    if is_char_boundary wbytes idx = false then none
    else
      match str_find pbytes (wbytes.drop idx) with
      | none => some false
      | some pos =>
        if wbytes.length ≤ idx + pos + pbytes.length
            ∨ nthIsAlphabetic alpha word (idx + pos + pbytes.length) = false then
          some true
        else if wbytes.length ≤ idx + pos + 1 then some false
        else ltrLoop alpha pbytes word wbytes (idx + pos + 1) fuel

/-- Models `would_corrupt_ltr(pattern, source_word)` with alphabetic
classification `alpha`; `none` models a panic. -/
def would_corrupt_ltr (alpha : Char → Bool) (pattern source_word : List Char) :
    Option Bool :=
  let wbytes := encodeUtf8 source_word
  ltrLoop alpha (encodeUtf8 pattern) source_word wbytes 0 (wbytes.length + 1)

/-- A concrete instance of the alphabetic classification, modelling Rust's
`char::is_alphabetic` on the characters the concrete inputs of this file
use: ASCII letters and `é` (U+00E9, a Unicode letter) are alphabetic;
ASCII digits, punctuation and the sentinel are not. The universally
quantified theorems below hold for every classification function and do
not depend on this instance. -/
def is_alphabetic (c : Char) : Bool :=
  c.isAlpha || c == 'é'

/-- Models `source_words.iter().any(|word| would_corrupt(..))` over fallible
single checks: stops at the first `some true`, propagates the first panic
encountered before that. -/
def any_word (f : List Char → Option Bool) : List (List Char) → Option Bool
  | [] => some false
  | w :: ws =>
    match f w with
    | none => none
    | some true => some true
    | some false => any_word f ws

/-- Models `patterns.iter().map(..).collect::<Vec<bool>>()` over fallible
per-pattern checks: the results in input order, `none` as soon as one
evaluation panics. -/
def collect_map (f : List Char → Option Bool) : List (List Char) → Option (List Bool)
  | [] => some []
  | p :: ps =>
    match f p with
    | none => none
    | some b => (collect_map f ps).map (fun l => b :: l)

/-- Models `batch_check_patterns(patterns, source_words, match_direction)`
(the `Ok`-wrapped value; the Rust function has no error path):
`is_rtl` holds exactly for the strings `"RTL"` and `"RIGHT_TO_LEFT"`, and
selects which single check every pattern is evaluated with. -/
def batch_check_patterns (alpha : Char → Bool)
    (patterns source_words : List (List Char)) (match_direction : List Char) :
    Option (List Bool) :=
  let is_rtl := match_direction == ("RTL").toList
      || match_direction == ("RIGHT_TO_LEFT").toList
  collect_map
    (fun pattern =>
      if is_rtl then
        any_word (fun word => would_corrupt_rtl alpha pattern word) source_words
      else
        any_word (fun word => would_corrupt_ltr alpha pattern word) source_words)
    patterns

/-- The single check the spec's `would_corrupt(pattern, word, direction)`
denotes for a given `match_direction` string, used to state batch
consistency: the leading-edge check for the recognized leading strings,
the trailing-edge check otherwise. -/
def dir_would_corrupt (alpha : Char → Bool) (match_direction : List Char)
    (pattern word : List Char) : Option Bool :=
  if match_direction == ("RTL").toList
      || match_direction == ("RIGHT_TO_LEFT").toList then
    would_corrupt_rtl alpha pattern word
  else
    would_corrupt_ltr alpha pattern word

/-- All characters single-byte (ASCII): on such strings byte offsets and
character offsets coincide. -/
def ascii_str (s : List Char) : Bool :=
  s.all (fun c => decide (c.toNat < 128))

/-! ### Structural lemmas for the index -/

theorem startsFrom_length (acc : Nat) (ts : List (List Char)) :
    (startsFrom acc ts).length = ts.length := by
  induction ts generalizing acc with
  | nil => rfl
  | cons t ts ih => simp [startsFrom, ih]

theorem startsFrom_add (a : Nat) : ∀ (ts : List (List Char)) (b : Nat),
    startsFrom (b + a) ts = (startsFrom b ts).map (· + a) := by
  intro ts
  induction ts with
  | nil => intro b; rfl
  | cons t ts ih =>
    intro b
    have h1 : b + a + t.length + 1 = b + t.length + 1 + a := by omega
    simp only [startsFrom, List.map_cons]
    rw [h1, ih]

theorem startsFrom_mem_le (acc : Nat) (ts : List (List Char)) :
    ∀ s ∈ startsFrom acc ts, acc ≤ s := by
  induction ts generalizing acc with
  | nil => simp [startsFrom]
  | cons t ts ih =>
    intro s hs
    simp only [startsFrom, List.mem_cons] at hs
    rcases hs with rfl | hs
    · exact le_refl _
    · have := ih (acc + t.length + 1) s hs
      omega

theorem startsFrom_pairwise (acc : Nat) (ts : List (List Char)) :
    (startsFrom acc ts).Pairwise (· < ·) := by
  induction ts generalizing acc with
  | nil => simp [startsFrom]
  | cons t ts ih =>
    simp only [startsFrom]
    refine List.Pairwise.cons ?_ (ih _)
    intro s hs
    have := startsFrom_mem_le (acc + t.length + 1) ts s hs
    omega

theorem concatWithSentinel_cons (t0 : List Char) (ts : List (List Char))
    (h : ts ≠ []) :
    concatWithSentinel (t0 :: ts) = t0 ++ sentinel :: concatWithSentinel ts := by
  cases ts with
  | nil => exact absurd rfl h
  | cons t1 ts' => rfl

theorem startsFrom_cons_getElem (t0 : List Char) (ts : List (List Char)) (j : Nat) :
    (startsFrom 0 (t0 :: ts))[j + 1]? =
      ((startsFrom 0 ts)[j]?).map (· + (t0.length + 1)) := by
  have h := startsFrom_add (t0.length + 1) ts 0
  simp only [Nat.zero_add] at h
  have e : (0 : Nat) + t0.length + 1 = t0.length + 1 := by omega
  simp only [startsFrom, List.getElem?_cons_succ, e, h]
  simp [List.getElem?_map]

theorem drop_concat_cons (t0 C : List Char) (n : Nat) :
    (t0 ++ sentinel :: C).drop (t0.length + 1 + n) = C.drop n := by
  have h : t0 ++ sentinel :: C = (t0 ++ [sentinel]) ++ C := by simp
  have h2 : t0.length + 1 + n = (t0 ++ [sentinel]).length + n := by simp
  rw [h, h2, ← List.drop_drop, List.drop_left]

theorem getElem_concat_cons (t0 C : List Char) (n : Nat) :
    (t0 ++ sentinel :: C)[t0.length + 1 + n]? = C[n]? := by
  have h : t0 ++ sentinel :: C = (t0 ++ [sentinel]) ++ C := by simp
  rw [h, List.getElem?_append_right
    (by simp only [List.length_append, List.length_cons, List.length_nil]; omega)]
  congr 1
  simp only [List.length_append, List.length_cons, List.length_nil]
  omega

theorem struct_main : ∀ (ts : List (List Char)) (j : Nat) (t : List Char),
    ts[j]? = some t →
    ∃ s, (startsFrom 0 ts)[j]? = some s
      ∧ s + t.length ≤ (concatWithSentinel ts).length
      ∧ (concatWithSentinel ts).drop s
          = t ++ (concatWithSentinel ts).drop (s + t.length)
      ∧ (j + 1 = ts.length → s + t.length = (concatWithSentinel ts).length)
      ∧ (j + 1 < ts.length →
          (concatWithSentinel ts)[s + t.length]? = some sentinel
          ∧ (startsFrom 0 ts)[j + 1]? = some (s + t.length + 1)) := by
  intro ts
  induction ts with
  | nil => intro j t h; simp at h
  | cons t0 ts ih =>
    intro j t h
    rcases j with _ | j
    · have ht : t0 = t := by simpa using h
      subst ht
      cases ts with
      | nil =>
        refine ⟨0, by simp [startsFrom], by simp [concatWithSentinel], ?_, ?_, ?_⟩
        · simp [concatWithSentinel, List.drop_length]
        · intro _; simp [concatWithSentinel]
        · intro hlt; simp at hlt
      | cons t1 ts' =>
        have hne : (t1 :: ts') ≠ ([] : List (List Char)) := by simp
        set C := concatWithSentinel (t1 :: ts') with hC
        have hcc : concatWithSentinel (t0 :: t1 :: ts') = t0 ++ sentinel :: C :=
          concatWithSentinel_cons t0 (t1 :: ts') hne
        refine ⟨0, by simp [startsFrom], ?_, ?_, ?_, ?_⟩
        · rw [hcc]
          simp only [List.length_append, List.length_cons]
          omega
        · rw [hcc]
          simp only [List.drop_zero, Nat.zero_add, List.drop_left]
        · intro h1
          rw [hcc]
          simp only [List.length_cons] at h1
          simp only [List.length_append, List.length_cons]
          omega
        · intro _
          constructor
          · rw [hcc]
            simp only [Nat.zero_add]
            rw [List.getElem?_append_right (le_refl _)]
            simp
          · rw [startsFrom_cons_getElem]
            simp [startsFrom]
    · have h' : ts[j]? = some t := by simpa using h
      have hne : ts ≠ [] := by
        rintro rfl; simp at h'
      rcases ih j t h' with ⟨s, hget, hle, hdrop, hlast, hmid⟩
      set C := concatWithSentinel ts with hC
      have hcc : concatWithSentinel (t0 :: ts) = t0 ++ sentinel :: C :=
        concatWithSentinel_cons t0 ts hne
      have hlen : (concatWithSentinel (t0 :: ts)).length = t0.length + 1 + C.length := by
        rw [hcc]
        simp only [List.length_append, List.length_cons]
        omega
      have e1 : s + (t0.length + 1) = t0.length + 1 + s := by omega
      have e2 : s + (t0.length + 1) + t.length = t0.length + 1 + (s + t.length) := by
        omega
      refine ⟨s + (t0.length + 1), ?_, ?_, ?_, ?_, ?_⟩
      · rw [startsFrom_cons_getElem, hget]
        rfl
      · omega
      · rw [hcc, e2, e1, drop_concat_cons, drop_concat_cons]
        exact hdrop
      · intro h1
        simp only [List.length_cons] at h1
        have h2 : j + 1 = ts.length := by omega
        have h3 := hlast h2
        omega
      · intro h1
        simp only [List.length_cons] at h1
        have hj1 : j + 1 < ts.length := by omega
        rcases hmid hj1 with ⟨hs1, hs2⟩
        constructor
        · rw [hcc, e2, getElem_concat_cons]
          exact hs1
        · rw [startsFrom_cons_getElem, hs2]
          simp only [Option.map_some', Option.some.injEq]
          omega

theorem countP_lt_sorted : ∀ (l : List Nat), l.Pairwise (· < ·) →
    ∀ (j s x : Nat), l[j]? = some s → s ≤ x →
    (∀ s', l[j + 1]? = some s' → x < s') →
    l.countP (fun a => decide (a < x)) = j + (if s < x then 1 else 0) := by
  intro l
  induction l with
  | nil => intro _ j s x h; simp at h
  | cons a l ih =>
    intro hp j s x hj hsx hnext
    rcases j with _ | j
    · have ha : a = s := by simpa using hj
      subst ha
      have hzero : l.countP (fun b => decide (b < x)) = 0 := by
        rw [List.countP_eq_zero]
        intro b hb
        simp only [decide_eq_true_eq]
        cases l with
        | nil => simp at hb
        | cons s' l' =>
          have hx : x < s' := hnext s' (by simp)
          have hp' : (s' :: l').Pairwise (· < ·) := (List.pairwise_cons.mp hp).2
          rcases List.mem_cons.mp hb with rfl | hb'
          · omega
          · have : s' < b := List.rel_of_pairwise_cons hp' hb'
            omega
      rw [List.countP_cons, hzero]
      by_cases hc : a < x <;> simp [hc]
    · have hj' : l[j]? = some s := by simpa using hj
      have hnext' : ∀ s', l[j + 1]? = some s' → x < s' := by
        intro s' hs'
        exact hnext s' (by simpa using hs')
      have hp' := (List.pairwise_cons.mp hp).2
      have hmem : s ∈ l := by
        rcases List.getElem?_eq_some.mp hj' with ⟨hh, rfl⟩
        exact List.getElem_mem hh
      have has : a < s := (List.pairwise_cons.mp hp).1 s hmem
      have hax : a < x := by omega
      rw [List.countP_cons, ih hp' j s x hj' hsx hnext']
      simp [hax]
      omega

theorem binary_search_locates (l : List Nat) (hl : l.Pairwise (· < ·))
    (j s x : Nat) (hj : l[j]? = some s) (hsx : s ≤ x)
    (hnext : ∀ s', l[j + 1]? = some s' → x < s') :
    (match binary_search l x with
      | BsResult.ok i => some i
      | BsResult.err i => if 0 < i then some (i - 1) else none) = some j := by
  have hcount := countP_lt_sorted l hl j s x hj hsx hnext
  unfold binary_search
  by_cases hc : s < x
  · simp only [hc, if_true] at hcount
    have hne : l[j + 1]? ≠ some x := by
      intro hcon
      have := hnext x hcon
      omega
    simp only [hcount]
    rw [if_neg hne]
    simp
  · have hx : s = x := by omega
    subst hx
    simp only [hc, if_false, Nat.add_zero] at hcount
    simp only [hcount]
    rw [if_pos hj]

theorem mem_sa_positions (text query : List Char) (p : Nat) :
    p ∈ sa_positions text query ↔
      text ≠ [] ∧ query ≠ [] ∧ p < text.length ∧ query <+: text.drop p := by
  unfold sa_positions
  by_cases ht : text.isEmpty
  · have ht' : text = [] := by simpa [List.isEmpty_iff] using ht
    simp [ht, ht']
  · by_cases hq : query.isEmpty
    · have hq' : query = [] := by simpa [List.isEmpty_iff] using hq
      simp [ht, hq, hq']
    · have ht' : text ≠ [] := by simpa [List.isEmpty_iff] using ht
      have hq' : query ≠ [] := by simpa [List.isEmpty_iff] using hq
      simp [ht, hq, ht', hq', List.mem_filter, List.mem_range,
        List.isPrefixOf_iff_prefix]

theorem typo_to_idx_get_some {typos : List (List Char)} {t : List Char} {k : Nat}
    (h : typo_to_idx_get typos t = some k) : typos[k]? = some t := by
  have h2 := List.find?_some h
  simpa using h2

theorem typo_to_idx_get_of_nodup {typos : List (List Char)} {i : Nat} {t : List Char}
    (hnd : typos.Nodup) (hi : typos[i]? = some t) :
    typo_to_idx_get typos t = some i := by
  have hlen : i < typos.length := by
    rcases List.getElem?_eq_some.mp hi with ⟨hh, _⟩
    exact hh
  have hsome : (typo_to_idx_get typos t).isSome = true := by
    rw [typo_to_idx_get, List.find?_isSome]
    exact ⟨i, by simp [List.mem_range, hlen], by simp [hi]⟩
  rcases Option.isSome_iff_exists.mp hsome with ⟨k, hk⟩
  have hk' : typos[k]? = some t := typo_to_idx_get_some hk
  have hklen : k < typos.length := by
    rcases List.getElem?_eq_some.mp hk' with ⟨hh, _⟩
    exact hh
  have hki : k = i := List.getElem?_inj hklen hnd (hk'.trans hi.symm)
  rw [hk, hki]

theorem span_check_some {S : RustSubstringIndex} {pos idx0 idx : Nat}
    (h : span_check S pos idx0 = some idx) :
    idx = idx0
      ∧ idx < S.typos.length
      ∧ S.cumulative_starts.getD idx 0 ≤ pos
      ∧ pos < S.cumulative_starts.getD idx 0 + (S.typos.getD idx []).length := by
  unfold span_check at h
  split_ifs at h with h1 h2
  rcases Option.some.inj h with rfl
  exact ⟨rfl, h1, h2.1, h2.2⟩

theorem match_pos_to_idx_checks {S : RustSubstringIndex} {pos idx : Nat}
    (h : match_pos_to_idx S pos = some idx) :
    idx < S.typos.length
      ∧ S.cumulative_starts.getD idx 0 ≤ pos
      ∧ pos < S.cumulative_starts.getD idx 0 + (S.typos.getD idx []).length := by
  unfold match_pos_to_idx at h
  rcases hbs : binary_search S.cumulative_starts pos with i | i <;>
    simp only [hbs] at h
  · exact (span_check_some h).2
  · split_ifs at h with h1
    exact (span_check_some h).2

theorem prefix_append_of_length_le {α : Type*} {q a b : List α} (h : q <+: a ++ b)
    (hlen : q.length ≤ a.length) : q <+: a := by
  rcases h with ⟨r, hr⟩
  have h1 : q = (a ++ b).take q.length := by
    rw [← hr]
    exact ( List.take_left q r).symm
  have h2 : (a ++ b).take q.length = a.take q.length :=
    List.take_append_of_le_length hlen
  rw [h1, h2]
  exact List.take_prefix _ _

theorem getElem_of_prefix {α : Type*} {q X : List α} (h : q <+: X) {i : Nat}
    (hi : i < q.length) : X[i]? = q[i]? := by
  rcases h with ⟨r, hr⟩
  rw [← hr, List.getElem?_append_left hi]

theorem mem_of_getElem_some {α : Type*} {l : List α} {i : Nat} {a : α}
    (h : l[i]? = some a) : a ∈ l := by
  rcases List.getElem?_eq_some.mp h with ⟨hh, rfl⟩
  exact List.getElem_mem hh

/-- Soundness core for `find_substring_conflicts` over a built index: every
returned index is in range and its entry really contains the
(sentinel-free) query as a substring. -/
theorem fsc_sound {ts : List (List Char)} {typo : List Char} {idx : Nat}
    (hq : sentinel ∉ typo)
    (hmem : idx ∈ find_substring_conflicts (buildIndex ts) typo) :
    idx < ts.length ∧ ∃ t, ts[idx]? = some t ∧ typo <:+: t := by
  simp only [find_substring_conflicts, buildIndex, List.mem_filter,
    List.mem_filterMap] at hmem
  rcases hmem with ⟨⟨pos, hpos, hmatch⟩, _⟩
  have hchecks := match_pos_to_idx_checks hmatch
  simp only [buildIndex] at hchecks
  rcases hchecks with ⟨hidx, hstart, hend⟩
  have ht : ts[idx]? = some ts[idx] := List.getElem?_eq_getElem hidx
  set t := ts[idx] with htdef
  rcases struct_main ts idx t ht with ⟨s, hget, hle, hdrop, hlast, hmid⟩
  have hgetD : (startsFrom 0 ts).getD idx 0 = s := by
    rw [List.getD_eq_getElem?_getD, hget]
    rfl
  have htD : ts.getD idx [] = t := by
    rw [List.getD_eq_getElem?_getD, ht]
    rfl
  rw [hgetD] at hstart hend
  rw [htD] at hend
  have hsa := (mem_sa_positions (concatWithSentinel ts) typo pos).mp hpos
  rcases hsa with ⟨hcne, htne, hplen, hpfx⟩
  set d := pos - s with hd
  have hpd : pos = s + d := by omega
  have hdlt : d < t.length := by omega
  have hdrop2 : (concatWithSentinel ts).drop pos
      = t.drop d ++ (concatWithSentinel ts).drop (s + t.length) := by
    rw [hpd, ← List.drop_drop, hdrop, List.drop_append_of_le_length (by omega)]
  rw [hdrop2] at hpfx
  have hqlen : typo.length ≤ t.length - d := by
    by_contra hcon
    push_neg at hcon
    have hi0 : t.length - d < typo.length := hcon
    have hlen0 : (t.drop d).length = t.length - d := by simp
    have hx : (t.drop d ++ (concatWithSentinel ts).drop (s + t.length))[t.length - d]?
        = ((concatWithSentinel ts).drop (s + t.length))[0]? := by
      rw [List.getElem?_append_right (le_of_eq hlen0)]
      congr 1
      rw [hlen0]
      omega
    have hy : ((concatWithSentinel ts).drop (s + t.length))[0]?
        = (concatWithSentinel ts)[s + t.length]? := by
      rw [List.getElem?_drop]
      simp
    rcases Nat.lt_or_ge (idx + 1) ts.length with hcase | hcase
    · rcases hmid hcase with ⟨hsent, _⟩
      have hq0 : typo[t.length - d]? = some sentinel := by
        rw [← getElem_of_prefix hpfx hi0, hx, hy, hsent]
      exact hq (mem_of_getElem_some hq0)
    · have hcase' : idx + 1 = ts.length := by omega
      have hL := hlast hcase'
      have hR : (concatWithSentinel ts).drop (s + t.length) = [] := by
        rw [hL]
        exact List.drop_length _
      rw [hR, List.append_nil] at hpfx
      have := hpfx.length_le
      simp at this
      omega
  have hpfx2 : typo <+: t.drop d :=
    prefix_append_of_length_le hpfx (by simp; omega)
  refine ⟨hidx, t, ht, ?_⟩
  exact hpfx2.isInfix.trans ( List.drop_suffix d t).isInfix

/-- Completeness core for `find_substring_conflicts` over a built index: a
nonempty entry `e1` that is a substring of a different entry `e2` makes
`e2`'s index appear in the result. -/
theorem fsc_complete {ts : List (List Char)} {i j : Nat} {e1 e2 : List Char}
    (hi : ts[i]? = some e1) (hj : ts[j]? = some e2) (hne : e1 ≠ e2)
    (h1ne : e1 ≠ []) (hsub : e1 <:+: e2) :
    j ∈ find_substring_conflicts (buildIndex ts) e1 := by
  rcases hsub with ⟨u, v, huv⟩
  have h1len : 0 < e1.length := List.length_pos.mpr h1ne
  have h2len : e2.length = u.length + e1.length + v.length := by
    rw [← huv]
    simp
    omega
  have hjlen : j < ts.length := by
    rcases List.getElem?_eq_some.mp hj with ⟨hh, _⟩
    exact hh
  rcases struct_main ts j e2 hj with ⟨s, hget, hle, hdrop, hlast, hmid⟩
  set pos := s + u.length with hposdef
  have hulen : u.length < e2.length := by omega
  -- the query occurs at pos
  have he2split : e2 = u ++ (e1 ++ v) := by rw [← huv]; simp
  have hdroppos : (concatWithSentinel ts).drop pos
      = e1 ++ (v ++ (concatWithSentinel ts).drop (s + e2.length)) := by
    rw [hposdef, ← List.drop_drop, hdrop, he2split,
      List.drop_append_of_le_length (by simp), List.drop_left]
    simp
  have hpfx : e1 <+: (concatWithSentinel ts).drop pos := by
    rw [hdroppos]
    exact ⟨v ++ (concatWithSentinel ts).drop (s + e2.length), rfl⟩
  have hplen : pos < (concatWithSentinel ts).length := by omega
  have hcne : concatWithSentinel ts ≠ [] :=
    List.ne_nil_of_length_pos (by omega)
  have hposmem : pos ∈ sa_positions (concatWithSentinel ts) e1 :=
    (mem_sa_positions _ _ _).mpr ⟨hcne, h1ne, hplen, hpfx⟩
  -- binary search resolves pos to j
  have hnext : ∀ s', (startsFrom 0 ts)[j + 1]? = some s' → pos < s' := by
    intro s' hs'
    rcases Nat.lt_or_ge (j + 1) ts.length with hcase | hcase
    · rcases hmid hcase with ⟨_, hs2⟩
      rw [hs2] at hs'
      rcases Option.some.inj hs' with rfl
      omega
    · rw [List.getElem?_eq_none (by rw [startsFrom_length]; omega)] at hs'
      exact absurd hs' (by simp)
  have hloc := binary_search_locates (startsFrom 0 ts) (startsFrom_pairwise 0 ts)
    j s pos hget (by omega) hnext
  have hspan : span_check (buildIndex ts) pos j = some j := by
    unfold span_check
    simp only [buildIndex]
    rw [if_pos hjlen, if_pos]
    constructor
    · rw [List.getD_eq_getElem?_getD, hget]
      simp
      omega
    · rw [List.getD_eq_getElem?_getD, hget, List.getD_eq_getElem?_getD, hj]
      simp
      omega
  have hmatch : match_pos_to_idx (buildIndex ts) pos = some j := by
    unfold match_pos_to_idx
    simp only [buildIndex] at hloc ⊢
    rcases hbs : binary_search (startsFrom 0 ts) pos with k | k <;>
      simp only [hbs] at hloc ⊢
    · rcases Option.some.inj hloc with rfl
      exact hspan
    · split_ifs at hloc with hk
      rcases Option.some.inj hloc with heq
      rw [if_pos hk, heq]
      exact hspan
  simp only [find_substring_conflicts, buildIndex, List.mem_filter,
    List.mem_filterMap]
  refine ⟨⟨pos, ?_, ?_⟩, ?_⟩
  · simpa [buildIndex] using hposmem
  · simpa [buildIndex] using hmatch
  · rw [bne_iff_ne]
    intro hcon
    have := typo_to_idx_get_some hcon.symm
    rw [hj] at this
    exact hne (Option.some.inj this).symm

/-- Self-exclusion core: with pairwise distinct entries, querying an entry's
own text never reports that entry. -/
theorem fsc_self_excluded {ts : List (List Char)} (hnd : ts.Nodup) {i : Nat}
    {t : List Char} (hi : ts[i]? = some t) :
    i ∉ find_substring_conflicts (buildIndex ts) t := by
  intro hmem
  simp only [find_substring_conflicts, buildIndex, List.mem_filter] at hmem
  rcases hmem with ⟨_, hbne⟩
  rw [typo_to_idx_get_of_nodup hnd hi] at hbne
  simp at hbne

/-! ### Lemmas for the batch checker -/

theorem any_word_spec {f : List Char → Option Bool} :
    ∀ {ws : List (List Char)} {b : Bool}, any_word f ws = some b →
      (b = true ↔ ∃ w ∈ ws, f w = some true) := by
  intro ws
  induction ws with
  | nil =>
    intro b h
    simp only [any_word] at h
    rcases Option.some.inj h with rfl
    simp
  | cons w ws ih =>
    intro b h
    simp only [any_word] at h
    rcases hf : f w with _ | bw
    · rw [hf] at h
      exact absurd h (by simp)
    · rw [hf] at h
      rcases bw with _ | _
      · have := ih h
        constructor
        · intro hb
          rcases this.mp hb with ⟨w', hw', hfw'⟩
          exact ⟨w', by simp [hw'], hfw'⟩
        · intro hex
          rcases hex with ⟨w', hw', hfw'⟩
          rcases List.mem_cons.mp hw' with rfl | hw''
          · rw [hf] at hfw'
            exact absurd hfw' (by simp)
          · exact this.mpr ⟨w', hw'', hfw'⟩
      · rcases Option.some.inj h with rfl
        simp only [true_iff]
        exact ⟨w, by simp, hf⟩

theorem collect_map_spec {f : List Char → Option Bool} :
    ∀ {ps : List (List Char)} {l : List Bool}, collect_map f ps = some l →
      l.length = ps.length
        ∧ ∀ (i : Nat) (p : List Char), ps[i]? = some p →
            ∃ b, l[i]? = some b ∧ f p = some b := by
  intro ps
  induction ps with
  | nil =>
    intro l h
    simp only [collect_map] at h
    rcases Option.some.inj h with rfl
    constructor
    · rfl
    · intro i p hp
      simp at hp
  | cons p ps ih =>
    intro l h
    simp only [collect_map] at h
    rcases hf : f p with _ | b0
    · rw [hf] at h
      exact absurd h (by simp)
    · rw [hf] at h
      rcases hrest : collect_map f ps with _ | l0
      · rw [hrest] at h
        exact absurd h (by simp)
      · rw [hrest] at h
        simp only [Option.map_some'] at h
        rcases Option.some.inj h with rfl
        rcases ih hrest with ⟨hlen, helem⟩
        constructor
        · simp [hlen]
        · intro i q hq
          rcases i with _ | i
          · rcases Option.some.inj (by simpa using hq) with rfl
            exact ⟨b0, by simp, hf⟩
          · rcases helem i q (by simpa using hq) with ⟨b, hb, hfb⟩
            exact ⟨b, by simpa using hb, hfb⟩

/-! ### ASCII and `str_find` lemmas for the corruption checkers -/

theorem utf8Bytes_ascii {c : Char} (h : c.toNat < 128) : utf8Bytes c = [c.toNat] := by
  unfold utf8Bytes
  rw [if_pos (by omega)]

theorem encodeUtf8_ascii {s : List Char} (h : ascii_str s = true) :
    encodeUtf8 s = s.map Char.toNat := by
  induction s with
  | nil => rfl
  | cons c s ih =>
    have hc : c.toNat < 128 := by
      have := (List.all_eq_true.mp h) c (by simp)
      simpa using this
    have hs : ascii_str s = true := by
      rw [ascii_str, List.all_eq_true]
      intro x hx
      exact (List.all_eq_true.mp h) x (by simp [hx])
    simp only [encodeUtf8, List.map_cons, List.flatten_cons] at *
    rw [utf8Bytes_ascii hc, ih hs]
    rfl

theorem boundary_ascii {w : List Char} (hw : ascii_str w = true) {i : Nat}
    (hi : i ≤ w.length) : is_char_boundary (w.map Char.toNat) i = true := by
  unfold is_char_boundary
  rcases Nat.eq_zero_or_pos i with rfl | hpos
  · simp
  · rw [if_neg (by omega)]
    rcases Nat.lt_or_ge i w.length with hlt | hge
    · have hget : (w.map Char.toNat)[i]? = some (w[i]).toNat := by
        rw [List.getElem?_map, List.getElem?_eq_getElem hlt]
        rfl
      have hc : (w[i]).toNat < 128 := by
        have := (List.all_eq_true.mp hw) (w[i]) (List.getElem_mem hlt)
        simpa using this
      simp only [hget]
      rw [if_neg (by omega)]
    · have hieq : i = w.length := by omega
      have hnone : (w.map Char.toNat)[i]? = none := by
        apply List.getElem?_eq_none
        simp [hieq]
      simp only [hnone]
      simp [hieq]

theorem char_toNat_injective : Function.Injective Char.toNat := by
  intro a b h
  have := congrArg Char.ofNat h
  rwa [Char.ofNat_toNat, Char.ofNat_toNat] at this

theorem map_prefix_iff {α β : Type*} {f : α → β} (hf : Function.Injective f) :
    ∀ (l m : List α), (l.map f <+: m.map f) ↔ l <+: m := by
  intro l
  induction l with
  | nil => intro m; simp
  | cons a l ih =>
    intro m
    cases m with
    | nil =>
      simp only [List.map_cons, List.map_nil]
      constructor
      · intro h
        have := h.length_le
        simp at this
      · intro h
        have := h.length_le
        simp at this
    | cons b m' =>
      simp only [List.map_cons, List.cons_prefix_cons]
      constructor
      · rintro ⟨hab, hlm⟩
        exact ⟨hf hab, (ih m').mp hlm⟩
      · rintro ⟨hab, hlm⟩
        exact ⟨congrArg f hab, (ih m').mpr hlm⟩

theorem str_find_none {pat hay : List Nat} :
    str_find pat hay = none ↔ ∀ q, ¬ pat <+: hay.drop q := by
  induction hay with
  | nil =>
    by_cases hp : pat.isPrefixOf ([] : List Nat) = true
    · simp only [str_find, hp, if_true]
      constructor
      · intro h
        exact absurd h (by simp)
      · intro h
        exact absurd ( List.isPrefixOf_iff_prefix.mp hp) (by simpa using h 0)
    · simp only [str_find, hp, if_false]
      constructor
      · intro _ q
        simp only [List.drop_nil]
        intro hcon
        exact hp ( List.isPrefixOf_iff_prefix.mpr hcon)
      · intro _
        rfl
  | cons b t ih =>
    by_cases hp : pat.isPrefixOf (b :: t) = true
    · simp only [str_find, hp, if_true]
      constructor
      · intro h
        exact absurd h (by simp)
      · intro h
        exact absurd ( List.isPrefixOf_iff_prefix.mp hp) (by simpa using h 0)
    · simp only [str_find, hp, if_false]
      constructor
      · intro h q
        have hnone : str_find pat t = none := by
          rcases hf : str_find pat t with _ | k
          · rfl
          · rw [hf] at h
            exact absurd h (by simp)
        have := ih.mp hnone
        rcases q with _ | q
        · simp only [List.drop_zero]
          intro hcon
          exact hp ( List.isPrefixOf_iff_prefix.mpr hcon)
        · simpa using this q
      · intro h
        have hnone : str_find pat t = none := by
          rw [ih]
          intro q
          simpa using h (q + 1)
        rw [hnone]
        rfl

theorem str_find_some {pat hay : List Nat} :
    ∀ {k : Nat}, str_find pat hay = some k →
      pat <+: hay.drop k ∧ (∀ q < k, ¬ pat <+: hay.drop q) ∧ k ≤ hay.length := by
  induction hay with
  | nil =>
    intro k h
    simp only [str_find] at h
    split_ifs at h with hp
    rcases Option.some.inj h with rfl
    refine ⟨by simpa using List.isPrefixOf_iff_prefix.mp hp, ?_, by simp⟩
    intro q hq
    omega
  | cons b t ih =>
    intro k h
    simp only [str_find] at h
    split_ifs at h with hp
    · rcases Option.some.inj h with rfl
      refine ⟨by simpa using List.isPrefixOf_iff_prefix.mp hp, ?_, by simp⟩
      intro q hq
      omega
    · rcases hf : str_find pat t with _ | k0
      · rw [hf] at h
        exact absurd h (by simp)
      · rw [hf] at h
        simp only [Option.map_some'] at h
        rcases Option.some.inj h with rfl
        rcases ih hf with ⟨h1, h2, h3⟩
        refine ⟨by simpa using h1, ?_, by simp; omega⟩
        intro q hq
        rcases q with _ | q
        · simp only [List.drop_zero]
          intro hcon
          exact hp ( List.isPrefixOf_iff_prefix.mpr hcon)
        · intro hcon
          exact h2 q (by omega) (by simpa using hcon)

/-- Follows the spec's words for a LEADING boundary-sensitive occurrence:
`pattern` occurs at character offset `k` of `word`, and the occurrence
starts at offset 0 or the character immediately preceding offset `k`
exists and is not alphabetic. -/
def leadingSensitiveAt (alpha : Char → Bool) (pattern word : List Char)
    (k : Nat) : Prop :=
  k + pattern.length ≤ word.length ∧ pattern <+: word.drop k
    ∧ (k = 0 ∨ (word[k - 1]?).map alpha = some false)

/-- Follows the spec's words for a TRAILING boundary-sensitive occurrence:
`pattern` occurs at character offset `k` of `word`, and the occurrence ends
exactly at the end of `word` or the character immediately following it
exists and is not alphabetic. -/
def trailingSensitiveAt (alpha : Char → Bool) (pattern word : List Char)
    (k : Nat) : Prop :=
  k + pattern.length ≤ word.length ∧ pattern <+: word.drop k
    ∧ (k + pattern.length = word.length
        ∨ (word[k + pattern.length]?).map alpha = some false)

theorem rtl_cond_iff {alpha : Char → Bool} {w : List Char} {k0 : Nat}
    (hk0 : k0 < w.length) :
    (((k0 == 0) || !nthIsAlphabetic alpha w (k0 - 1)) = true)
      ↔ (k0 = 0 ∨ (w[k0 - 1]?).map alpha = some false) := by
  rcases Nat.eq_zero_or_pos k0 with rfl | hpos
  · simp
  · have hlt : k0 - 1 < w.length := by omega
    have hget : w[k0 - 1]? = some (w[k0 - 1]) := List.getElem?_eq_getElem hlt
    simp only [Bool.or_eq_true, beq_iff_eq, Bool.not_eq_true', nthIsAlphabetic,
      hget, Option.map_some', Option.some.injEq]

theorem ltr_cond_iff {alpha : Char → Bool} {w : List Char} {j : Nat}
    (hj : j ≤ w.length) :
    ((w.length ≤ j ∨ nthIsAlphabetic alpha w j = false)
      ↔ (j = w.length ∨ (w[j]?).map alpha = some false)) := by
  rcases Nat.lt_or_ge j w.length with hlt | hge
  · have hget : w[j]? = some (w[j]) := List.getElem?_eq_getElem hlt
    simp only [nthIsAlphabetic, hget, Option.map_some', Option.some.injEq]
    constructor
    · rintro (h | h)
      · omega
      · exact Or.inr h
    · rintro (h | h)
      · omega
      · exact Or.inr h
  · have hje : j = w.length := by omega
    constructor
    · intro _
      exact Or.inl hje
    · intro _
      exact Or.inl (by omega)

theorem rtlLoop_ascii {alpha : Char → Bool} {p w : List Char}
    (hp : ascii_str p = true) (hw : ascii_str w = true) (hpne : p ≠ []) :
    ∀ (fuel idx : Nat), idx ≤ w.length → w.length - idx < fuel →
      ∃ b, rtlLoop alpha (p.map Char.toNat) w (w.map Char.toNat) idx fuel = some b
        ∧ (b = true ↔ ∃ k, idx ≤ k ∧ leadingSensitiveAt alpha p w k) := by
  have hplen : 0 < p.length := List.length_pos.mpr hpne
  intro fuel
  induction fuel with
  | zero =>
    intro idx _ h
    omega
  | succ fuel ih =>
    intro idx hidx hfuel
    have hb : is_char_boundary (w.map Char.toNat) idx = true := boundary_ascii hw hidx
    have hdropmap : (w.map Char.toNat).drop idx = (w.drop idx).map Char.toNat := by
      rw [List.map_drop]
    rcases hfind : str_find (p.map Char.toNat) ((w.map Char.toNat).drop idx)
        with _ | pos
    · refine ⟨false, ?_, ?_⟩
      · simp [rtlLoop, hb, hfind]
      · simp only [Bool.false_eq_true, false_iff]
        rintro ⟨k, hk, hklen, hkpfx, hksens⟩
        have h1 : (p.map Char.toNat) <+: ((w.map Char.toNat).drop idx).drop (k - idx) := by
          rw [hdropmap, ← List.map_drop, List.drop_drop,
            show idx + (k - idx) = k by omega]
          exact (map_prefix_iff char_toNat_injective _ _).mpr hkpfx
        exact str_find_none.mp hfind (k - idx) h1
    · rcases str_find_some hfind with ⟨hocc, hmin, hposle⟩
      have hoccc : p <+: w.drop (idx + pos) := by
        rw [hdropmap, ← List.map_drop, List.drop_drop] at hocc
        exact (map_prefix_iff char_toNat_injective _ _).mp hocc
      have hlenle : p.length ≤ w.length - (idx + pos) := by
        have := hoccc.length_le
        simpa using this
      have hk0lt : idx + pos < w.length := by omega
      have hk0len : idx + pos + p.length ≤ w.length := by omega
      have hminc : ∀ q, idx ≤ q → q < idx + pos → ¬ p <+: w.drop q := by
        intro q hq1 hq2 hcon
        have h1 : (p.map Char.toNat) <+: ((w.map Char.toNat).drop idx).drop (q - idx) := by
          rw [hdropmap, ← List.map_drop, List.drop_drop,
            show idx + (q - idx) = q by omega]
          exact (map_prefix_iff char_toNat_injective _ _).mpr hcon
        exact hmin (q - idx) (by omega) h1
      have hcond := @rtl_cond_iff alpha w (idx + pos) hk0lt
      by_cases hc : ((idx + pos == 0) || !nthIsAlphabetic alpha w (idx + pos - 1)) = true
      · refine ⟨true, ?_, ?_⟩
        · simp [rtlLoop, hb, hfind, hc]
        · simp only [true_iff]
          exact ⟨idx + pos, by omega, hk0len, hoccc, hcond.mp hc⟩
      · have hcnot : ¬(idx + pos = 0 ∨ (w[idx + pos - 1]?).map alpha = some false) := by
          intro hcon
          exact hc (hcond.mpr hcon)
        by_cases hbrk : w.length ≤ idx + pos + 1
        · refine ⟨false, ?_, ?_⟩
          · simp [rtlLoop, hb, hfind, hc, hbrk]
          · simp only [Bool.false_eq_true, false_iff]
            rintro ⟨k, hk, hklen, hkpfx, hksens⟩
            rcases Nat.lt_trichotomy k (idx + pos) with h1 | h1 | h1
            · exact hminc k hk h1 hkpfx
            · subst h1
              exact hcnot hksens
            · omega
        · rcases ih (idx + pos + 1) (by omega) (by omega) with ⟨b, hloop, hiff⟩
          refine ⟨b, ?_, ?_⟩
          · simp only [rtlLoop, hb, hfind]
            simp only [Bool.true_eq_false, if_false]
            rw [if_neg (by simp [hc]), if_neg (by simp; omega)]
            exact hloop
          · rw [hiff]
            constructor
            · rintro ⟨k, hk, hs⟩
              exact ⟨k, by omega, hs⟩
            · rintro ⟨k, hk, hs⟩
              rcases Nat.lt_trichotomy k (idx + pos) with h1 | h1 | h1
              · exact absurd hs.2.1 (hminc k hk h1)
              · subst h1
                exact absurd hs.2.2 hcnot
              · exact ⟨k, by omega, hs⟩

theorem str_find_nil_pat (hay : List Nat) : str_find ([] : List Nat) hay = some 0 := by
  cases hay <;> simp [str_find, List.isPrefixOf]

theorem would_corrupt_rtl_ascii {alpha : Char → Bool} {p w : List Char}
    (hp : ascii_str p = true) (hw : ascii_str w = true) :
    ∃ b, would_corrupt_rtl alpha p w = some b
      ∧ (b = true ↔ ∃ k, leadingSensitiveAt alpha p w k) := by
  by_cases hpne : p = []
  · subst hpne
    refine ⟨true, ?_, ?_⟩
    · simp only [would_corrupt_rtl, rtlLoop]
      have he : encodeUtf8 [] = ([] : List Nat) := rfl
      rw [he]
      simp [is_char_boundary, str_find_nil_pat]
    · simp only [true_iff]
      refine ⟨0, ?_, ?_, Or.inl rfl⟩
      · simp
      · simp
  · rcases rtlLoop_ascii hp hw hpne (w.length + 1) 0 (by omega) (by omega)
      with ⟨b, hloop, hiff⟩
    refine ⟨b, ?_, ?_⟩
    · simp only [would_corrupt_rtl, encodeUtf8_ascii hp, encodeUtf8_ascii hw,
        List.length_map]
      exact hloop
    · rw [hiff]
      constructor
      · rintro ⟨k, _, hs⟩
        exact ⟨k, hs⟩
      · rintro ⟨k, hs⟩
        exact ⟨k, by omega, hs⟩

theorem ltrLoop_ascii {alpha : Char → Bool} {p w : List Char}
    (hp : ascii_str p = true) (hw : ascii_str w = true) (hpne : p ≠ []) :
    ∀ (fuel idx : Nat), idx ≤ w.length → w.length - idx < fuel →
      ∃ b, ltrLoop alpha (p.map Char.toNat) w (w.map Char.toNat) idx fuel = some b
        ∧ (b = true ↔ ∃ k, idx ≤ k ∧ trailingSensitiveAt alpha p w k) := by
  have hplen : 0 < p.length := List.length_pos.mpr hpne
  intro fuel
  induction fuel with
  | zero =>
    intro idx _ h
    omega
  | succ fuel ih =>
    intro idx hidx hfuel
    have hb : is_char_boundary (w.map Char.toNat) idx = true := boundary_ascii hw hidx
    have hdropmap : (w.map Char.toNat).drop idx = (w.drop idx).map Char.toNat := by
      rw [List.map_drop]
    rcases hfind : str_find (p.map Char.toNat) ((w.map Char.toNat).drop idx)
        with _ | pos
    · refine ⟨false, ?_, ?_⟩
      · simp [ltrLoop, hb, hfind]
      · simp only [Bool.false_eq_true, false_iff]
        rintro ⟨k, hk, hklen, hkpfx, hksens⟩
        have h1 : (p.map Char.toNat) <+: ((w.map Char.toNat).drop idx).drop (k - idx) := by
          rw [hdropmap, ← List.map_drop, List.drop_drop,
            show idx + (k - idx) = k by omega]
          exact (map_prefix_iff char_toNat_injective _ _).mpr hkpfx
        exact str_find_none.mp hfind (k - idx) h1
    · rcases str_find_some hfind with ⟨hocc, hmin, hposle⟩
      have hoccc : p <+: w.drop (idx + pos) := by
        rw [hdropmap, ← List.map_drop, List.drop_drop] at hocc
        exact (map_prefix_iff char_toNat_injective _ _).mp hocc
      have hlenle : p.length ≤ w.length - (idx + pos) := by
        have := hoccc.length_le
        simpa using this
      have hk0lt : idx + pos < w.length := by omega
      have hk0len : idx + pos + p.length ≤ w.length := by omega
      have hminc : ∀ q, idx ≤ q → q < idx + pos → ¬ p <+: w.drop q := by
        intro q hq1 hq2 hcon
        have h1 : (p.map Char.toNat) <+: ((w.map Char.toNat).drop idx).drop (q - idx) := by
          rw [hdropmap, ← List.map_drop, List.drop_drop,
            show idx + (q - idx) = q by omega]
          exact (map_prefix_iff char_toNat_injective _ _).mpr hcon
        exact hmin (q - idx) (by omega) h1
      have hcond := @ltr_cond_iff alpha w (idx + pos + p.length) hk0len
      by_cases hc : (w.length ≤ idx + pos + p.length
          ∨ nthIsAlphabetic alpha w (idx + pos + p.length) = false)
      · refine ⟨true, ?_, ?_⟩
        · simp only [ltrLoop, hb, hfind]
          simp only [Bool.true_eq_false, if_false]
          rw [if_pos (by simpa using hc)]
        · simp only [true_iff]
          exact ⟨idx + pos, by omega, hk0len, hoccc, hcond.mp hc⟩
      · have hcnot : ¬(idx + pos + p.length = w.length
            ∨ (w[idx + pos + p.length]?).map alpha = some false) := by
          intro hcon
          exact hc (hcond.mpr hcon)
        by_cases hbrk : w.length ≤ idx + pos + 1
        · refine ⟨false, ?_, ?_⟩
          · simp only [ltrLoop, hb, hfind]
            simp only [Bool.true_eq_false, if_false]
            rw [if_neg (by simpa using hc), if_pos (by simpa using hbrk)]
          · simp only [Bool.false_eq_true, false_iff]
            rintro ⟨k, hk, hklen, hkpfx, hksens⟩
            rcases Nat.lt_trichotomy k (idx + pos) with h1 | h1 | h1
            · exact hminc k hk h1 hkpfx
            · subst h1
              exact hcnot hksens
            · omega
        · rcases ih (idx + pos + 1) (by omega) (by omega) with ⟨b, hloop, hiff⟩
          refine ⟨b, ?_, ?_⟩
          · simp only [ltrLoop, hb, hfind]
            simp only [Bool.true_eq_false, if_false]
            rw [if_neg (by simpa using hc), if_neg (by simp; omega)]
            exact hloop
          · rw [hiff]
            constructor
            · rintro ⟨k, hk, hs⟩
              exact ⟨k, by omega, hs⟩
            · rintro ⟨k, hk, hs⟩
              rcases Nat.lt_trichotomy k (idx + pos) with h1 | h1 | h1
              · exact absurd hs.2.1 (hminc k hk h1)
              · subst h1
                exact absurd hs.2.2 hcnot
              · exact ⟨k, by omega, hs⟩

theorem would_corrupt_ltr_ascii {alpha : Char → Bool} {p w : List Char}
    (hp : ascii_str p = true) (hw : ascii_str w = true) (hpne : p ≠ []) :
    ∃ b, would_corrupt_ltr alpha p w = some b
      ∧ (b = true ↔ ∃ k, trailingSensitiveAt alpha p w k) := by
  rcases ltrLoop_ascii hp hw hpne (w.length + 1) 0 (by omega) (by omega)
    with ⟨b, hloop, hiff⟩
  refine ⟨b, ?_, ?_⟩
  · simp only [would_corrupt_ltr, encodeUtf8_ascii hp, encodeUtf8_ascii hw,
      List.length_map]
    exact hloop
  · rw [hiff]
    constructor
    · rintro ⟨k, _, hs⟩
      exact ⟨k, hs⟩
    · rintro ⟨k, hs⟩
      exact ⟨k, by omega, hs⟩

theorem batch_check_patterns_eq (alpha : Char → Bool)
    (patterns source_words : List (List Char)) (match_direction : List Char) :
    batch_check_patterns alpha patterns source_words match_direction
      = collect_map (fun pattern =>
          any_word (fun word => dir_would_corrupt alpha match_direction pattern word)
            source_words) patterns := by
  simp only [batch_check_patterns, dir_would_corrupt]
  congr 1
  funext pattern
  by_cases hd : (match_direction == ("RTL").toList
      || match_direction == ("RIGHT_TO_LEFT").toList) = true
  · rw [if_pos hd]
    congr 1
    funext word
    rw [if_pos hd]
  · rw [if_neg hd]
    congr 1
    funext word
    rw [if_neg hd]

/-! ### The claims -/

/-- C1 counterexample: over the sentinel-free corpus `["a", "b"]`, the query
pattern `"a\x00b"` (an arbitrary string containing the sentinel byte)
returns index 0, although entry `"a"` does not contain the pattern as a
substring: the span check only validates the match's starting position, so
this match crossing the concatenation boundary is reported. -/
theorem c1_counterexample :
    (∀ t ∈ ([[' '], ['a'], ['b']] : List (List Char)), sentinel ∉ t)
      ∧ find_substring_conflicts (buildIndex [['a'], ['b']]) ['a', sentinel, 'b']
          = [0]
      ∧ ¬ ((['a', sentinel, 'b'] : List Char) <:+: ['a']) := by
  refine ⟨by decide, by decide, by decide⟩

/-- C1 (amended): soundness of substring queries for sentinel-free query
patterns: for every index built from entries none of which contains the
sentinel byte, and every query pattern that does not contain the sentinel
byte, every index returned by `find_substring_conflicts` is in
`0 ≤ idx < N` and names an entry that truly contains the pattern as a
substring; no match crossing a sentinel/concatenation boundary is
reported. -/
theorem c1_substring_soundness (ts : List (List Char)) (typo : List Char)
    (idx : Nat) (hts : ∀ t ∈ ts, sentinel ∉ t) (hq : sentinel ∉ typo)
    (hmem : idx ∈ find_substring_conflicts (buildIndex ts) typo) :
    idx < ts.length ∧ ∃ t, ts[idx]? = some t ∧ typo <:+: t :=
  fsc_sound hq hmem

/-- C1 witness: corpus `["ab", "ba"]`, query `"a"`, returned index 0. -/
theorem c1_substring_soundness_witness :
    (∀ t ∈ ([['a', 'b'], ['b', 'a']] : List (List Char)), sentinel ∉ t)
      ∧ sentinel ∉ (['a'] : List Char)
      ∧ 0 ∈ find_substring_conflicts (buildIndex [['a', 'b'], ['b', 'a']]) ['a']
      ∧ (0 < ([['a', 'b'], ['b', 'a']] : List (List Char)).length
          ∧ ∃ t, ([['a', 'b'], ['b', 'a']] : List (List Char))[0]? = some t
              ∧ (['a'] : List Char) <:+: t) :=
  ⟨by decide, by decide, by decide,
    c1_substring_soundness [['a', 'b'], ['b', 'a']] ['a'] 0 (by decide) (by decide)
      (by decide)⟩

/-- C2 counterexample: over the corpus `["", "x"]` the entries `""` and
`"x"` are distinct and `""` is a substring of `"x"` (at index 1), yet
querying `""` returns no indices at all — the position index returns an
empty list for an empty query. -/
theorem c2_counterexample :
    (([] : List Char) ≠ ['x'])
      ∧ (([] : List Char) <:+: ['x'])
      ∧ ([[], ['x']] : List (List Char))[0]? = some []
      ∧ ([[], ['x']] : List (List Char))[1]? = some ['x']
      ∧ find_substring_conflicts (buildIndex [[], ['x']]) [] = [] := by
  refine ⟨by decide, by decide, by decide, by decide, by decide⟩

/-- C2 (amended): completeness of substring queries for nonempty entries:
for every corpus and every pair of distinct entries `e1 ≠ e2` with `e1`
nonempty, if `e1` is a substring of `e2` then the index of `e2` appears in
`find_substring_conflicts(e1)`. -/
theorem c2_boundary_containment (ts : List (List Char)) (i j : Nat)
    (e1 e2 : List Char) (hi : ts[i]? = some e1) (hj : ts[j]? = some e2)
    (hne : e1 ≠ e2) (h1ne : e1 ≠ []) (hsub : e1 <:+: e2) :
    j ∈ find_substring_conflicts (buildIndex ts) e1 :=
  fsc_complete hi hj hne h1ne hsub

/-- C2 witness: corpus `["ab", "b"]`: `"b"` is a substring of `"ab"`, and
index 0 appears in the conflicts of `"b"`. -/
theorem c2_boundary_containment_witness :
    ([['a', 'b'], ['b']] : List (List Char))[1]? = some ['b']
      ∧ ([['a', 'b'], ['b']] : List (List Char))[0]? = some ['a', 'b']
      ∧ (['b'] : List Char) ≠ ['a', 'b']
      ∧ (['b'] : List Char) ≠ []
      ∧ ((['b'] : List Char) <:+: ['a', 'b'])
      ∧ 0 ∈ find_substring_conflicts (buildIndex [['a', 'b'], ['b']]) ['b'] :=
  ⟨by decide, by decide, by decide, by decide, by decide,
    c2_boundary_containment [['a', 'b'], ['b']] 1 0 ['b'] ['a', 'b'] (by decide)
      (by decide) (by decide) (by decide) (by decide)⟩

/-- C3: self-exclusion: for every corpus with pairwise distinct entries and
every valid index `i`, `find_substring_conflicts(entries[i])` never
contains `i` — the reverse lookup resolves the query to `i` and that index
is filtered out. -/
theorem c3_self_exclusion (ts : List (List Char)) (hnd : ts.Nodup) (i : Nat)
    (t : List Char) (hi : ts[i]? = some t) :
    i ∉ find_substring_conflicts (buildIndex ts) t :=
  fsc_self_excluded hnd hi

/-- C3 witness: corpus `["ab", "b"]`, query `"ab"` does not report 0. -/
theorem c3_self_exclusion_witness :
    ([['a', 'b'], ['b']] : List (List Char)).Nodup
      ∧ ([['a', 'b'], ['b']] : List (List Char))[0]? = some ['a', 'b']
      ∧ 0 ∉ find_substring_conflicts (buildIndex [['a', 'b'], ['b']]) ['a', 'b'] :=
  ⟨by decide, by decide,
    c3_self_exclusion [['a', 'b'], ['b']] (by decide) 0 ['a', 'b'] (by decide)⟩

/-- C4 counterexample: on the multi-byte word `"éa!a"` with pattern `"!a"`,
`would_corrupt_rtl` returns `true` although no occurrence is
boundary-sensitive for LEADING: the only occurrence is at character offset
2, preceded by the alphabetic `'a'`; the code passes the byte offset 3 to
the character-indexed `chars().nth(absolute_pos - 1)` and looks at `'!'`
instead. -/
theorem c4_counterexample :
    would_corrupt_rtl is_alphabetic ['!', 'a'] ['é', 'a', '!', 'a'] = some true
      ∧ ∀ k, ¬ leadingSensitiveAt is_alphabetic ['!', 'a'] ['é', 'a', '!', 'a'] k := by
  constructor
  · decide
  · intro k
    rintro ⟨hlen, hpfx, hsens⟩
    have hk : k ≤ 2 := by
      have : k + 2 ≤ 4 := by simpa using hlen
      omega
    interval_cases k
    · exact absurd hpfx (by decide)
    · exact absurd hpfx (by decide)
    · rcases hsens with h | h
      · exact absurd h (by decide)
      · exact absurd h (by decide)

/-- C4 (amended): LEADING single-check semantics on single-byte (ASCII)
strings: for every ASCII pattern and word, `would_corrupt_rtl` returns a
value, and it is `true` iff some occurrence of the pattern in the word
(overlapping occurrences included) starts at offset 0 or is immediately
preceded by a non-alphabetic character; otherwise (including when the
pattern does not occur) it is `false`. -/
theorem c4_leading_semantics (alpha : Char → Bool) (pattern word : List Char)
    (hp : ascii_str pattern = true) (hw : ascii_str word = true) :
    ∃ b, would_corrupt_rtl alpha pattern word = some b
      ∧ (b = true ↔ ∃ k, leadingSensitiveAt alpha pattern word k) :=
  would_corrupt_rtl_ascii hp hw

/-- C4 witness: the spec's own example `would_corrupt("cat", "cats",
LEADING)`. -/
theorem c4_leading_semantics_witness :
    ascii_str ['c', 'a', 't'] = true
      ∧ ascii_str ['c', 'a', 't', 's'] = true
      ∧ ∃ b, would_corrupt_rtl is_alphabetic ['c', 'a', 't'] ['c', 'a', 't', 's']
            = some b
          ∧ (b = true
              ↔ ∃ k, leadingSensitiveAt is_alphabetic ['c', 'a', 't']
                  ['c', 'a', 't', 's'] k) :=
  ⟨by decide, by decide,
    c4_leading_semantics is_alphabetic ['c', 'a', 't'] ['c', 'a', 't', 's']
      (by decide) (by decide)⟩

/-- C5 counterexample, two failing inputs: (1) the empty pattern on word
`"a"`: the code returns `false`, yet the occurrence of `""` at offset 1
ends exactly at the end of the word, so the claimed iff demands `true`
(the loop breaks before reaching offset `len`); (2) pattern `"a"` on the
multi-byte word `"éab"`: the code returns `true`, yet the only occurrence
is followed by the alphabetic `'b'` (the code looks up the byte offset 3
in the character sequence and finds nothing). -/
theorem c5_counterexample :
    (would_corrupt_ltr is_alphabetic [] ['a'] = some false
        ∧ trailingSensitiveAt is_alphabetic [] ['a'] 1)
      ∧ (would_corrupt_ltr is_alphabetic ['a'] ['é', 'a', 'b'] = some true
        ∧ ∀ k, ¬ trailingSensitiveAt is_alphabetic ['a'] ['é', 'a', 'b'] k) := by
  refine ⟨⟨by decide, ⟨by decide, by decide, Or.inl (by decide)⟩⟩, by decide, ?_⟩
  intro k
  rintro ⟨hlen, hpfx, hsens⟩
  have hk : k ≤ 2 := by
    have : k + 1 ≤ 3 := by simpa using hlen
    omega
  interval_cases k
  · exact absurd hpfx (by decide)
  · rcases hsens with h | h
    · exact absurd h (by decide)
    · exact absurd h (by decide)
  · exact absurd hpfx (by decide)

/-- C5 (amended): TRAILING single-check semantics on single-byte (ASCII)
strings and nonempty patterns: for every nonempty ASCII pattern and ASCII
word, `would_corrupt_ltr` returns a value, and it is `true` iff some
occurrence of the pattern in the word ends exactly at the end of the word
or is immediately followed by a non-alphabetic character; otherwise it is
`false`. -/
theorem c5_trailing_semantics (alpha : Char → Bool) (pattern word : List Char)
    (hp : ascii_str pattern = true) (hw : ascii_str word = true)
    (hne : pattern ≠ []) :
    ∃ b, would_corrupt_ltr alpha pattern word = some b
      ∧ (b = true ↔ ∃ k, trailingSensitiveAt alpha pattern word k) :=
  would_corrupt_ltr_ascii hp hw hne

/-- C5 witness: the spec's own example `would_corrupt("cat", "cat!",
TRAILING)`. -/
theorem c5_trailing_semantics_witness :
    ascii_str ['c', 'a', 't'] = true
      ∧ ascii_str ['c', 'a', 't', '!'] = true
      ∧ (['c', 'a', 't'] : List Char) ≠ []
      ∧ ∃ b, would_corrupt_ltr is_alphabetic ['c', 'a', 't'] ['c', 'a', 't', '!']
            = some b
          ∧ (b = true
              ↔ ∃ k, trailingSensitiveAt is_alphabetic ['c', 'a', 't']
                  ['c', 'a', 't', '!'] k) :=
  ⟨by decide, by decide, by decide,
    c5_trailing_semantics is_alphabetic ['c', 'a', 't'] ['c', 'a', 't', '!']
      (by decide) (by decide) (by decide)⟩

/-- C6 counterexample: with the recognized direction `"RTL"`, pattern list
`["é"]` and word list `["aé"]`, `batch_check_patterns` returns no list of
booleans at all — the underlying `would_corrupt_rtl` call panics on the
multi-byte word (slice at a non-character-boundary), modelled as `none`. -/
theorem c6_counterexample :
    batch_check_patterns is_alphabetic [['é']] [['a', 'é']] (("RTL").toList)
      = none := by
  decide

/-- C6 (amended): batch consistency whenever the batch returns: if
`batch_check_patterns` returns a list (no underlying call panics before a
verdict is reached), the list's length equals `len(patterns)` and its
`i`-th element is `true` iff `would_corrupt(patterns[i], w, direction)`
returns `true` for at least one word `w`; moreover
`batch_check([], words, dir)` returns `[]`. -/
theorem c6_batch_consistency (alpha : Char → Bool)
    (patterns source_words : List (List Char)) (match_direction : List Char)
    (l : List Bool)
    (h : batch_check_patterns alpha patterns source_words match_direction = some l) :
    l.length = patterns.length
      ∧ batch_check_patterns alpha [] source_words match_direction = some []
      ∧ ∀ (i : Nat) (p : List Char), patterns[i]? = some p →
          ∃ b, l[i]? = some b
            ∧ (b = true ↔ ∃ w ∈ source_words,
                dir_would_corrupt alpha match_direction p w = some true) := by
  rw [batch_check_patterns_eq] at h
  rcases collect_map_spec h with ⟨hlen, helem⟩
  refine ⟨hlen, ?_, ?_⟩
  · rw [batch_check_patterns_eq]
    rfl
  · intro i p hp
    rcases helem i p hp with ⟨b, hb, hfb⟩
    exact ⟨b, hb, any_word_spec hfb⟩

/-- C6 witness: one pattern `"cat"`, one word `"cat!"`, direction `"LTR"`,
result `[true]`. -/
theorem c6_batch_consistency_witness :
    batch_check_patterns is_alphabetic [['c', 'a', 't']] [['c', 'a', 't', '!']]
        (("LTR").toList) = some [true]
      ∧ (([true] : List Bool).length = ([['c', 'a', 't']] : List (List Char)).length
        ∧ batch_check_patterns is_alphabetic [] [['c', 'a', 't', '!']]
            (("LTR").toList) = some []
        ∧ ∀ (i : Nat) (p : List Char),
            ([['c', 'a', 't']] : List (List Char))[i]? = some p →
              ∃ b, ([true] : List Bool)[i]? = some b
                ∧ (b = true ↔ ∃ w ∈ [['c', 'a', 't', '!']],
                    dir_would_corrupt is_alphabetic (("LTR").toList) p w
                      = some true)) :=
  ⟨by decide,
    c6_batch_consistency is_alphabetic [['c', 'a', 't']] [['c', 'a', 't', '!']]
      (("LTR").toList) [true] (by decide)⟩

/-- C7 counterexample: `RustSubstringIndex::new` succeeds on an entry that
consists of the reserved sentinel byte — no `InvalidInputError` is raised,
the constructor has no failure path at all. -/
theorem c7_counterexample :
    sentinel ∈ ([sentinel] : List Char)
      ∧ RustSubstringIndex.new [[sentinel]] = Except.ok (buildIndex [[sentinel]]) :=
  ⟨by decide, rfl⟩

/-- C7 (amended): construction never fails: `RustSubstringIndex::new`
returns `Ok` on every input, including entries containing the reserved
sentinel byte (no validation is performed), and the returned index is the
fully built one — entries, concatenated buffer and start table all
populated, never a partial index. -/
theorem c7_construction_total (entries : List (List Char)) :
    ∃ S, RustSubstringIndex.new entries = Except.ok S
      ∧ S.typos = entries
      ∧ S.concatenated = concatWithSentinel entries
      ∧ S.cumulative_starts = startsFrom 0 entries :=
  ⟨buildIndex entries, rfl, rfl, rfl, rfl⟩

/-- C8 counterexample: an unrecognized direction value `"BOGUS"` does not
fail with `InvalidArgumentError`: the call completes normally, silently
using the trailing-edge check. -/
theorem c8_counterexample :
    batch_check_patterns is_alphabetic [['c', 'a', 't']] [['c', 'a', 't', '!']]
      (("BOGUS").toList) = some [true] := by
  decide

/-- C8 (amended): `batch_check_patterns` recognizes exactly `"RTL"` and
`"RIGHT_TO_LEFT"` as the leading direction; every other direction value is
treated as the trailing direction — the call behaves exactly like a call
with `"LTR"` and never fails with `InvalidArgumentError`. -/
theorem c8_direction_fallback (alpha : Char → Bool)
    (patterns source_words : List (List Char)) (match_direction : List Char)
    (h1 : match_direction ≠ ("RTL").toList)
    (h2 : match_direction ≠ ("RIGHT_TO_LEFT").toList) :
    batch_check_patterns alpha patterns source_words match_direction
      = batch_check_patterns alpha patterns source_words (("LTR").toList) := by
  rw [batch_check_patterns_eq, batch_check_patterns_eq]
  congr 1
  funext pattern
  congr 1
  funext word
  unfold dir_would_corrupt
  rw [if_neg (by
    simp only [Bool.or_eq_true, beq_iff_eq]
    rintro (hcon | hcon)
    · exact h1 hcon
    · exact h2 hcon), if_neg (by decide)]

/-- C8 witness: direction `"LEADING"` behaves like `"LTR"`. -/
theorem c8_direction_fallback_witness :
    ("LEADING").toList ≠ ("RTL").toList
      ∧ ("LEADING").toList ≠ ("RIGHT_TO_LEFT").toList
      ∧ batch_check_patterns is_alphabetic [['c', 'a', 't']]
          [['c', 'a', 't', 's']] (("LEADING").toList)
        = batch_check_patterns is_alphabetic [['c', 'a', 't']]
          [['c', 'a', 't', 's']] (("LTR").toList) :=
  ⟨by decide, by decide,
    c8_direction_fallback is_alphabetic [['c', 'a', 't']] [['c', 'a', 't', 's']]
      (("LEADING").toList) (by decide) (by decide)⟩

/-- C9: the corruption checks are not total: on pattern `"é"` and word
`"aé"`, `would_corrupt_rtl` panics (modelled as `none`): the match at byte
offset 1 is not boundary-sensitive ('a' precedes it), `idx` becomes 2,
and `&source_word[2..]` slices in the middle of the two-byte `'é'`. -/
theorem c9_rtl_panics_on_multibyte :
    would_corrupt_rtl is_alphabetic ['é'] ['a', 'é'] = none := by
  decide

/-- C10: direction dispatch of `batch_check_patterns`: exactly the strings
`"RTL"` and `"RIGHT_TO_LEFT"` select the leading-edge check
(`would_corrupt_rtl`); every other direction string silently evaluates
every pattern with the trailing-edge check (`would_corrupt_ltr`) and
produces a result the same way — no error path exists. -/
theorem c10_direction_dispatch (alpha : Char → Bool)
    (patterns source_words : List (List Char)) (match_direction : List Char) :
    ((match_direction = ("RTL").toList
        ∨ match_direction = ("RIGHT_TO_LEFT").toList) →
      batch_check_patterns alpha patterns source_words match_direction
        = collect_map (fun pattern =>
            any_word (fun word => would_corrupt_rtl alpha pattern word)
              source_words) patterns)
    ∧ (match_direction ≠ ("RTL").toList →
        match_direction ≠ ("RIGHT_TO_LEFT").toList →
        batch_check_patterns alpha patterns source_words match_direction
          = collect_map (fun pattern =>
              any_word (fun word => would_corrupt_ltr alpha pattern word)
                source_words) patterns) := by
  constructor
  · intro hd
    rw [batch_check_patterns_eq]
    congr 1
    funext pattern
    congr 1
    funext word
    unfold dir_would_corrupt
    rcases hd with rfl | rfl
    · rw [if_pos (by decide)]
    · rw [if_pos (by decide)]
  · intro h1 h2
    rw [batch_check_patterns_eq]
    congr 1
    funext pattern
    congr 1
    funext word
    unfold dir_would_corrupt
    rw [if_neg (by
      simp only [Bool.or_eq_true, beq_iff_eq]
      rintro (hcon | hcon)
      · exact h1 hcon
      · exact h2 hcon)]

/-- C10 witness: the direction string `"TRAILING"` is evaluated with the
trailing-edge check. -/
theorem c10_direction_dispatch_witness :
    batch_check_patterns is_alphabetic [['c', 'a', 't']] [['c', 'a', 't', '!']]
        (("TRAILING").toList)
      = collect_map (fun pattern =>
          any_word (fun word => would_corrupt_ltr is_alphabetic pattern word)
            [['c', 'a', 't', '!']]) [['c', 'a', 't']] :=
  (c10_direction_dispatch is_alphabetic [['c', 'a', 't']] [['c', 'a', 't', '!']]
    (("TRAILING").toList)).2 (by decide) (by decide)
